import Mathlib

/-!
Shallow embedding of the cross-chain relayer in `server/relayer/relayer.js`.

The relayer maintains a process-wide `processedEvents` set (dedup ledger), a
`transactionQueue` drained serially by `processTransactionQueue`, per-chain
cursors (`lastBlockChecked`), and builds mint / reward jobs from discovered
`EthLocked` events (`pollForEvents`).  We model the relayer as an explicit
state machine: jobs carry a ghost sequence number (assigned at enqueue time,
mirroring array insertion order), the destination chain is modelled by the
signer's transaction count, and a ghost action trace records submissions,
confirmations, drops, dedup-ledger writes and enqueues.
-/

namespace Relayer

/-- Destination-chain contract targeted by a queued transaction:
`TOKEN_CONTRACT` (the mintable wETH token) or `STT_CONTRACT` (the reward
token). -/
inductive Target where
  | tokenContract
  | sttContract
  deriving DecidableEq, Repr

/-- A queued unit of work (`txInfo` in `relayer.js`): either the mint
transaction for a lock event, or the chained STT reward transfer.  The
event id the job belongs to is carried along (the JS closures capture the
surrounding event), together with the recipient and the amount. -/
inductive Job where
  | mint (eventId : String) (user amount : Nat)
  | reward (eventId : String) (user amount : Nat)
  deriving DecidableEq, Repr

/-- The transaction request built by a job's `transaction()` thunk:
destination contract, encoded function, recipient and amount. -/
structure TxRequest where
  dest : Target
  fn : String
  recipient : Nat
  amount : Nat
  deriving DecidableEq, Repr

/-- `rewardAmount = (amount * BigInt(10)) / BigInt(100)` — exact integer
(BigInt) arithmetic, 10% of the locked amount. -/
def rewardAmount (amount : Nat) : Nat := amount * 10 / 100

/-- The calldata built for each job: `mint(user, mintAmount)` on the token
contract, `transfer(user, rewardAmount)` on the STT contract. -/
def Job.request : Job → TxRequest
  | .mint _ user amount => ⟨.tokenContract, "mint", user, amount⟩
  | .reward _ user amount => ⟨.sttContract, "transfer", user, amount⟩

/-- Ghost trace entries recording what the relayer did, in order. -/
inductive Action where
  | enqueued (seq : Nat) (job : Job)
  | submitAttempt (seq : Nat) (job : Job) (nonce : Nat)
  | confirmTx (seq : Nat) (job : Job) (nonce : Nat)
  | dropJob (seq : Nat) (job : Job)
  | markProcessed (id : String)
  deriving DecidableEq, Repr

/-- Outcome of one submission attempt for the head job, as classified by the
`catch` branches of `processTransactionQueue`. -/
inductive Outcome where
  | success
  | nonceConflict
  | insufficientFunds
  | otherFailure
  deriving DecidableEq, Repr

/-- The relayer's mutable state: the `processedEvents` set (as an
insertion-ordered duplicate-free list), the `transactionQueue` (each job
tagged with its ghost enqueue sequence number), the next sequence number,
the signer's transaction count on the destination chain, the ghost list of
confirmed transactions `(seq, job, nonce)` in confirmation order, and the
ghost action trace. -/
structure RelayerState where
  processed : List String
  queue : List (Nat × Job)
  nextSeq : Nat
  txCount : Nat
  confirmed : List (Nat × Job × Nat)
  actions : List Action
  deriving DecidableEq, Repr

/-- `processedEvents.add(id)` — JS `Set` semantics: a no-op when the id is
already present. -/
def insertProcessed (id : String) (l : List String) : List String :=
  if l.contains id then l else l ++ [id]

/-- `transactionQueue.push(job)`: append at the back, tagging the job with
the next ghost sequence number. -/
def enqueueJob (j : Job) (s : RelayerState) : RelayerState :=
  { s with
    queue := s.queue ++ [(s.nextSeq, j)]
    nextSeq := s.nextSeq + 1
    actions := s.actions ++ [.enqueued s.nextSeq j] }

/-- The `onSuccess` callback of a job, run after the receipt confirms.  For a
mint job: `processedEvents.add(eventId)` and push the chained STT reward
transfer for `rewardAmount = (amount * 10) / 100`.  For a reward job: only
logging (no state change). -/
def onSuccessEffect (j : Job) (s : RelayerState) : RelayerState :=
  match j with
  | .mint id user amount =>
      enqueueJob (.reward id user (rewardAmount amount))
        { s with
          processed := insertProcessed id s.processed
          actions := s.actions ++ [.markProcessed id] }
  | .reward _ _ _ => s

/-- One iteration of the `while (transactionQueue.length > 0)` loop in
`processTransactionQueue`: take the head job, fetch the signer's current
transaction count from the chain (`getTransactionCount` — this is the nonce
assigned, not a cached counter), submit, and dispatch on the outcome:
* confirmed success: `transactionQueue.shift()`, account nonce advances,
  then run the job's `onSuccess` callback;
* `nonce too low` / `already known`: drop the head without re-submission
  (`transactionQueue.shift()`) and continue with the next job;
* `insufficient funds`: wait out a 30 s cooldown, queue unchanged, the same
  job stays at the head;
* any other failure: short 5 s backoff, queue unchanged, same head retried. -/
def drainStep (o : Outcome) (s : RelayerState) : RelayerState :=
  match s.queue with
  | [] => s
  | (seq, j) :: rest =>
    let nonce := s.txCount
    match o with
    | .success =>
        onSuccessEffect j
          { s with
            queue := rest
            txCount := s.txCount + 1
            confirmed := s.confirmed ++ [(seq, j, nonce)]
            actions := s.actions ++
              [.submitAttempt seq j nonce, .confirmTx seq j nonce] }
    | .nonceConflict =>
        { s with
          queue := rest
          actions := s.actions ++ [.submitAttempt seq j nonce, .dropJob seq j] }
    | .insufficientFunds =>
        { s with actions := s.actions ++ [.submitAttempt seq j nonce] }
    | .otherFailure =>
        { s with actions := s.actions ++ [.submitAttempt seq j nonce] }

/-- A run of the drain loop under a list of environment outcomes. -/
def drain (os : List Outcome) (s : RelayerState) : RelayerState :=
  os.foldl (fun s o => drainStep o s) s

/-- An `EthLocked` event as observed on a source chain. -/
structure LockEvent where
  user : Nat
  amount : Nat
  originChainId : Nat
  txHash : String
  logIndex : Nat
  deriving DecidableEq, Repr

/-- The dedup key built in `pollForEvents`:
the template literal `chainId-transactionHash-logIndex`. -/
def eventId (chainId : Nat) (txHash : String) (logIndex : Nat) : String :=
  toString chainId ++ "-" ++ txHash ++ "-" ++ toString logIndex

/-- The per-event body of `pollForEvents`: compute the event id, skip the
event when it is already in `processedEvents` (`continue`), otherwise push
a mint job `mint(user, amount)` (1:1, `mintAmount = amount`) onto the
transaction queue. -/
def handleEvent (chainId : Nat) (e : LockEvent) (s : RelayerState) : RelayerState :=
  let id := eventId chainId e.txHash e.logIndex
  if s.processed.contains id then s
  else enqueueJob (.mint id e.user e.amount) s

/-- A chain setup: its chain id and the cursor `lastBlockChecked`. -/
structure ChainSetup where
  chainId : Nat
  lastBlockChecked : Nat
  deriving DecidableEq, Repr

/-- One chain's poll inside `pollForEvents`.  The RPC environment is passed
in explicitly: `fetchHead` is the result of `getBlockNumber()` (`none` on
RPC failure) and `queryRes` the result of `queryFilter` over the range
`(lastBlockChecked, head]` (`none` on failure).  Failures are caught by the
surrounding `try`/`catch`: the cursor is left unchanged.  Only after the
query succeeds are the events handled in order and the cursor advanced to
the fetched head. -/
def pollChainOnce (cs : ChainSetup) (fetchHead : Option Nat)
    (queryRes : Option (List LockEvent)) (s : RelayerState) :
    ChainSetup × RelayerState :=
  match fetchHead with
  | none => (cs, s)
  | some head =>
    if cs.lastBlockChecked < head then
      match queryRes with
      | none => (cs, s)
      | some evs =>
          ({ cs with lastBlockChecked := head },
           evs.foldl (fun s e => handleEvent cs.chainId e s) s)
    else (cs, s)

/-- A full polling round over all configured chains
(`Promise.allSettled(pollPromises)`): every chain's poll runs with its own
RPC results; a failing chain is isolated by its own `catch`. -/
def pollRound (inputs : List (ChainSetup × Option Nat × Option (List LockEvent)))
    (s : RelayerState) : List ChainSetup × RelayerState :=
  match inputs with
  | [] => ([], s)
  | (cs, f, q) :: rest =>
      let p := pollChainOnce cs f q s
      let r := pollRound rest p.2
      (p.1 :: r.1, r.2)

/-- Interleaved system commands: delivery of a discovered event to the
coordinator, or one drain-loop iteration with a given outcome. -/
inductive Cmd where
  | deliver (chainId : Nat) (e : LockEvent)
  | drainTick (o : Outcome)
  deriving DecidableEq, Repr

def runCmd (s : RelayerState) : Cmd → RelayerState
  | .deliver cid e => handleEvent cid e s
  | .drainTick o => drainStep o s

/-- A run of the whole system under an arbitrary interleaving of event
deliveries and drain-loop iterations. -/
def run (cmds : List Cmd) (s : RelayerState) : RelayerState :=
  cmds.foldl runCmd s

/-- The initial relayer state: empty dedup set, empty queue, the signer's
transaction count as found on the destination chain at startup. -/
def initState (txCount0 : Nat) : RelayerState :=
  ⟨[], [], 0, txCount0, [], []⟩

/-- Structural invariant of a relayer state: queue sequence numbers are
strictly increasing (FIFO insertion order), confirmed transactions are
ordered both by enqueue sequence number and by nonce, every confirmed
sequence number precedes every queued one, all sequence numbers are below
`nextSeq`, and every confirmed nonce is below the chain's transaction
count. -/
def Inv (s : RelayerState) : Prop :=
  s.queue.Pairwise (fun a b => a.1 < b.1) ∧
  s.confirmed.Pairwise (fun a b => a.1 < b.1 ∧ a.2.2 < b.2.2) ∧
  (∀ a ∈ s.confirmed, ∀ b ∈ s.queue, a.1 < b.1) ∧
  (∀ b ∈ s.queue, b.1 < s.nextSeq) ∧
  (∀ a ∈ s.confirmed, a.1 < s.nextSeq) ∧
  (∀ a ∈ s.confirmed, a.2.2 < s.txCount)

/-- Does this action record the confirmed receipt of the mint transaction
for event `id`? -/
def Action.isMintConfirmFor (id : String) : Action → Bool
  | .confirmTx _ (.mint id2 _ _) _ => id2 == id
  | _ => false

/-- The mint transaction for event `id` has received a confirmed successful
receipt somewhere in the trace. -/
def mintConfirmed (id : String) (l : List Action) : Prop :=
  ∃ act ∈ l, act.isMintConfirmFor id = true

/-- C3 invariant: the dedup ledger is duplicate-free and every id in it has
a confirmed successful mint receipt in the trace. -/
def ProcessedSafe (s : RelayerState) : Prop :=
  s.processed.Nodup ∧ ∀ id ∈ s.processed, mintConfirmed id s.actions

/-- Boolean form of `mintConfirmed`, for decidable safety predicates. -/
def mintConfirmedB (id : String) (l : List Action) : Bool :=
  l.any (·.isMintConfirmFor id)

/-- A queued job is reward-justified: a reward job requires a confirmed
mint receipt for its event id somewhere in the trace; a mint job always
is. -/
def jobRewardOkB (l : List Action) : Job → Bool
  | .reward id _ _ => mintConfirmedB id l
  | .mint _ _ _ => true

/-- A trace entry is reward-justified: a submission or enqueue of a reward
job requires a confirmed mint receipt for its event id in the trace. -/
def actionRewardOkB (l : List Action) : Action → Bool
  | .submitAttempt _ (.reward id _ _) _ => mintConfirmedB id l
  | .enqueued _ (.reward id _ _) => mintConfirmedB id l
  | _ => true

/-- C4 invariant: every reward job in the queue and every reward enqueue or
reward submission in the trace belongs to an event whose mint transaction
already has a confirmed successful receipt. -/
def RewardSafe (s : RelayerState) : Prop :=
  (∀ p ∈ s.queue, jobRewardOkB s.actions p.2 = true) ∧
  (∀ act ∈ s.actions, actionRewardOkB s.actions act = true)

/-- Decimal digit list of a natural number, most significant digit first:
the reference form of what `Nat.repr` (and hence JS template-literal
interpolation of a number) produces. -/
def decDigits (n : Nat) : List Char :=
  if h : n < 10 then [Nat.digitChar n]
  else decDigits (n / 10) ++ [Nat.digitChar (n % 10)]
decreasing_by
  exact Nat.div_lt_self (by omega) (by omega)

/-- Numeric value of a decimal digit character. -/
def charVal (c : Char) : Nat := c.toNat - 48

/-- Read back a decimal digit list, most significant digit first, starting
from accumulator `a`. -/
def readNatAux (a : Nat) (l : List Char) : Nat :=
  l.foldl (fun x c => 10 * x + charVal c) a

end Relayer

namespace Relayer

/-! ### Queue / nonce invariant (FIFO serial draining) -/

lemma inv_enqueueJob {s : RelayerState} (h : Inv s) (j : Job) :
    Inv (enqueueJob j s) := by
  obtain ⟨hq, hc, hcq, hqn, hcn, hct⟩ := h
  refine ⟨?_, hc, ?_, ?_, ?_, hct⟩ <;>
    simp only [enqueueJob, List.pairwise_append, List.mem_append,
      List.mem_singleton, List.pairwise_cons] at *
  · exact ⟨hq, by simp, fun a ha b hb => by subst hb; exact hqn a ha⟩
  · rintro a ha b (hb | rfl)
    · exact hcq a ha b hb
    · exact hcn a ha
  · rintro b (hb | rfl)
    · exact Nat.lt_succ_of_lt (hqn b hb)
    · exact Nat.lt_succ_self _
  · exact fun a ha => Nat.lt_succ_of_lt (hcn a ha)

lemma inv_onSuccessEffect {s : RelayerState} (h : Inv s) (j : Job) :
    Inv (onSuccessEffect j s) := by
  cases j with
  | mint id user amount =>
      exact inv_enqueueJob ⟨h.1, h.2.1, h.2.2.1, h.2.2.2.1, h.2.2.2.2.1,
        h.2.2.2.2.2⟩ _
  | reward id user amount => exact h

lemma inv_drainStep {s : RelayerState} (h : Inv s) (o : Outcome) :
    Inv (drainStep o s) := by
  obtain ⟨hq, hc, hcq, hqn, hcn, hct⟩ := h
  cases hqe : s.queue with
  | nil => simp only [drainStep, hqe]; exact ⟨hq, hc, hcq, hqn, hcn, hct⟩
  | cons p rest =>
    obtain ⟨seq, j⟩ := p
    rw [hqe] at hq hcq hqn
    rw [List.pairwise_cons] at hq
    have hrest : rest.Pairwise (fun a b => a.1 < b.1) := hq.2
    have hheadlt : ∀ b ∈ rest, seq < b.1 := fun b hb => hq.1 b hb
    have hseqn : seq < s.nextSeq := hqn (seq, j) (by simp)
    have hhead : (seq, j) ∈ (seq, j) :: rest := by simp
    cases o with
    | success =>
        simp only [drainStep, hqe]
        apply inv_onSuccessEffect
        refine ⟨hrest, ?_, ?_, ?_, ?_, ?_⟩ <;>
          simp only [List.pairwise_append, List.mem_append,
            List.mem_singleton, List.pairwise_cons]
        · refine ⟨hc, by simp, ?_⟩
          rintro a ha b rfl
          exact ⟨hcq a ha (seq, j) hhead, hct a ha⟩
        · rintro a (ha | rfl) b hb
          · exact hcq a ha b (List.mem_cons_of_mem _ hb)
          · exact hheadlt b hb
        · exact fun b hb => hqn b (List.mem_cons_of_mem _ hb)
        · rintro a (ha | rfl)
          · exact hcn a ha
          · exact hseqn
        · rintro a (ha | rfl)
          · exact Nat.lt_succ_of_lt (hct a ha)
          · exact Nat.lt_succ_self _
    | nonceConflict =>
        simp only [drainStep, hqe]
        refine ⟨hrest, hc, ?_, ?_, hcn, hct⟩
        · exact fun a ha b hb => hcq a ha b (List.mem_cons_of_mem _ hb)
        · exact fun b hb => hqn b (List.mem_cons_of_mem _ hb)
    | insufficientFunds =>
        simp only [drainStep, hqe]
        exact ⟨List.pairwise_cons.mpr hq, hc, hcq, hqn, hcn, hct⟩
    | otherFailure =>
        simp only [drainStep, hqe]
        exact ⟨List.pairwise_cons.mpr hq, hc, hcq, hqn, hcn, hct⟩

lemma inv_handleEvent {s : RelayerState} (h : Inv s) (cid : Nat)
    (e : LockEvent) : Inv (handleEvent cid e s) := by
  by_cases hp :
      s.processed.contains (eventId cid e.txHash e.logIndex) = true
  · simp only [handleEvent, hp, if_true]
    exact h
  · simp only [handleEvent, hp, if_false]
    exact inv_enqueueJob h _

lemma inv_run {s : RelayerState} (h : Inv s) (cmds : List Cmd) :
    Inv (run cmds s) := by
  induction cmds generalizing s with
  | nil => exact h
  | cons c cs ih =>
      cases c with
      | deliver cid e => exact ih (inv_handleEvent h cid e)
      | drainTick o => exact ih (inv_drainStep h o)

/-- Two members of a pairwise-related list are related one way or the
other, or are the same element. -/
lemma pairwise_mem_cases {α : Type} {R : α → α → Prop} :
    ∀ (l : List α) (a b : α), l.Pairwise R → a ∈ l → b ∈ l →
      R a b ∨ R b a ∨ a = b := by
  intro l
  induction l with
  | nil => intro a b _ ha _; cases ha
  | cons x xs ih =>
      intro a b hp ha hb
      rw [List.pairwise_cons] at hp
      rcases List.mem_cons.mp ha with ha1 | ha2
      · subst ha1
        rcases List.mem_cons.mp hb with hb1 | hb2
        · subst hb1; exact Or.inr (Or.inr rfl)
        · exact Or.inl (hp.1 b hb2)
      · rcases List.mem_cons.mp hb with hb1 | hb2
        · subst hb1; exact Or.inr (Or.inl (hp.1 a ha2))
        · exact ih a b hp.2 ha2 hb2

/-! ### Safety invariants: dedup-ledger writes and reward chaining -/

lemma mintConfirmed_mono {id : String} {l l2 : List Action}
    (hsub : l ⊆ l2) : mintConfirmed id l → mintConfirmed id l2 := by
  rintro ⟨a, ha, hf⟩
  exact ⟨a, hsub ha, hf⟩

lemma insertProcessed_nodup {id : String} {l : List String}
    (h : l.Nodup) : (insertProcessed id l).Nodup := by
  unfold insertProcessed
  split
  · exact h
  · next hc =>
      simp only [List.contains_iff_exists_mem_beq, beq_iff_eq] at hc
      push_neg at hc
      simp [List.nodup_append, h]
      intro hmem
      exact (hc id hmem) rfl

lemma processedSafe_enqueueJob {s : RelayerState} (h : ProcessedSafe s)
    (j : Job) : ProcessedSafe (enqueueJob j s) := by
  refine ⟨h.1, fun id hid => ?_⟩
  exact mintConfirmed_mono (List.subset_append_left _ _) (h.2 id hid)

lemma processedSafe_handleEvent {s : RelayerState} (h : ProcessedSafe s)
    (cid : Nat) (e : LockEvent) : ProcessedSafe (handleEvent cid e s) := by
  by_cases hp :
      s.processed.contains (eventId cid e.txHash e.logIndex) = true
  · simp only [handleEvent, hp, if_true]
    exact h
  · simp only [handleEvent, hp, if_false]
    exact processedSafe_enqueueJob h _

lemma mem_insertProcessed {id id2 : String} {l : List String}
    (h : id ∈ insertProcessed id2 l) : id ∈ l ∨ id = id2 := by
  unfold insertProcessed at h
  split at h
  · exact Or.inl h
  · simpa using h

lemma processedSafe_drainStep {s : RelayerState} (h : ProcessedSafe s)
    (o : Outcome) : ProcessedSafe (drainStep o s) := by
  obtain ⟨hn, hm⟩ := h
  cases hqe : s.queue with
  | nil => simp only [drainStep, hqe]; exact ⟨hn, hm⟩
  | cons p rest =>
    obtain ⟨seq, j⟩ := p
    cases o with
    | success =>
        cases j with
        | mint id u a =>
            simp only [drainStep, hqe, onSuccessEffect, enqueueJob]
            refine ⟨insertProcessed_nodup hn, ?_⟩
            intro id2 hid2
            rcases mem_insertProcessed hid2 with hold | rfl
            · refine mintConfirmed_mono ?_ (hm id2 hold)
              intro x hx
              simp [hx]
            · refine ⟨Action.confirmTx seq (Job.mint id2 u a) s.txCount,
                by simp, ?_⟩
              simp [Action.isMintConfirmFor]
        | reward id u a =>
            simp only [drainStep, hqe, onSuccessEffect]
            refine ⟨hn, fun id2 hid2 => ?_⟩
            refine mintConfirmed_mono ?_ (hm id2 hid2)
            intro x hx
            simp [hx]
    | nonceConflict =>
        simp only [drainStep, hqe]
        refine ⟨hn, fun id2 hid2 => ?_⟩
        refine mintConfirmed_mono ?_ (hm id2 hid2)
        intro x hx
        simp [hx]
    | insufficientFunds =>
        simp only [drainStep, hqe]
        refine ⟨hn, fun id2 hid2 => ?_⟩
        refine mintConfirmed_mono ?_ (hm id2 hid2)
        intro x hx
        simp [hx]
    | otherFailure =>
        simp only [drainStep, hqe]
        refine ⟨hn, fun id2 hid2 => ?_⟩
        refine mintConfirmed_mono ?_ (hm id2 hid2)
        intro x hx
        simp [hx]

lemma processedSafe_run {s : RelayerState} (h : ProcessedSafe s)
    (cmds : List Cmd) : ProcessedSafe (run cmds s) := by
  induction cmds generalizing s with
  | nil => exact h
  | cons c cs ih =>
      cases c with
      | deliver cid e => exact ih (processedSafe_handleEvent h cid e)
      | drainTick o => exact ih (processedSafe_drainStep h o)

lemma mintConfirmedB_append {id : String} {l ext : List Action}
    (h : mintConfirmedB id l = true) :
    mintConfirmedB id (l ++ ext) = true := by
  simp only [mintConfirmedB, List.any_append, Bool.or_eq_true]
  exact Or.inl h

lemma jobRewardOkB_append {l ext : List Action} {j : Job}
    (h : jobRewardOkB l j = true) : jobRewardOkB (l ++ ext) j = true := by
  cases j with
  | mint id u a => simp [jobRewardOkB]
  | reward id u a =>
      simp only [jobRewardOkB] at h ⊢
      exact mintConfirmedB_append h

lemma actionRewardOkB_append {l ext : List Action} {act : Action}
    (h : actionRewardOkB l act = true) :
    actionRewardOkB (l ++ ext) act = true := by
  cases act with
  | submitAttempt seq j n =>
      cases j with
      | mint id u a => simp [actionRewardOkB]
      | reward id u a =>
          simp only [actionRewardOkB] at h ⊢
          exact mintConfirmedB_append h
  | enqueued seq j =>
      cases j with
      | mint id u a => simp [actionRewardOkB]
      | reward id u a =>
          simp only [actionRewardOkB] at h ⊢
          exact mintConfirmedB_append h
  | confirmTx seq j n => simp [actionRewardOkB]
  | dropJob seq j => simp [actionRewardOkB]
  | markProcessed id => simp [actionRewardOkB]

lemma rewardSafe_enqueueMint {s : RelayerState} (h : RewardSafe s)
    (id : String) (u a : Nat) :
    RewardSafe (enqueueJob (Job.mint id u a) s) := by
  obtain ⟨h1, h2⟩ := h
  constructor
  · intro p hp
    simp only [enqueueJob, List.mem_append, List.mem_singleton] at hp
    rcases hp with hp | rfl
    · exact jobRewardOkB_append (h1 p hp)
    · simp [jobRewardOkB]
  · intro act hact
    simp only [enqueueJob, List.mem_append, List.mem_singleton] at hact
    rcases hact with hact | rfl
    · exact actionRewardOkB_append (h2 act hact)
    · simp [actionRewardOkB]

lemma rewardSafe_handleEvent {s : RelayerState} (h : RewardSafe s)
    (cid : Nat) (e : LockEvent) : RewardSafe (handleEvent cid e s) := by
  by_cases hp :
      s.processed.contains (eventId cid e.txHash e.logIndex) = true
  · simp only [handleEvent, hp, if_true]
    exact h
  · simp only [handleEvent, hp, if_false]
    exact rewardSafe_enqueueMint h _ _ _

lemma rewardSafe_drainStep {s : RelayerState} (h : RewardSafe s)
    (o : Outcome) : RewardSafe (drainStep o s) := by
  obtain ⟨h1, h2⟩ := h
  cases hqe : s.queue with
  | nil => simp only [drainStep, hqe]; exact ⟨h1, h2⟩
  | cons p rest =>
    obtain ⟨seq, j⟩ := p
    have hrest : ∀ p ∈ rest, jobRewardOkB s.actions p.2 = true :=
      fun p hp => h1 p (by rw [hqe]; exact List.mem_cons_of_mem _ hp)
    have hheadok : jobRewardOkB s.actions j = true :=
      h1 (seq, j) (by rw [hqe]; exact List.mem_cons_self _ _)
    cases o with
    | success =>
        cases j with
        | mint id u a =>
            simp only [drainStep, hqe, onSuccessEffect, enqueueJob,
              List.append_assoc, List.cons_append, List.nil_append]
            have hcb : mintConfirmedB id
                (s.actions ++
                  [Action.submitAttempt seq (Job.mint id u a) s.txCount,
                   Action.confirmTx seq (Job.mint id u a) s.txCount,
                   Action.markProcessed id,
                   Action.enqueued s.nextSeq
                     (Job.reward id u (rewardAmount a))]) = true := by
              simp [mintConfirmedB, Action.isMintConfirmFor]
            constructor
            · intro p hp
              simp only [List.mem_append, List.mem_singleton] at hp
              rcases hp with hp | rfl
              · exact jobRewardOkB_append (hrest p hp)
              · simp only [jobRewardOkB]
                exact hcb
            · intro act hact
              simp only [List.mem_append, List.mem_cons,
                List.not_mem_nil, or_false] at hact
              rcases hact with hact | rfl | rfl | rfl | rfl
              · exact actionRewardOkB_append (h2 act hact)
              · simp [actionRewardOkB]
              · simp [actionRewardOkB]
              · simp [actionRewardOkB]
              · simp only [actionRewardOkB]
                exact hcb
        | reward id u a =>
            simp only [drainStep, hqe, onSuccessEffect,
              List.append_assoc, List.cons_append, List.nil_append]
            constructor
            · intro p hp
              exact jobRewardOkB_append (hrest p hp)
            · intro act hact
              simp only [List.mem_append, List.mem_cons,
                List.not_mem_nil, or_false] at hact
              rcases hact with hact | rfl | rfl
              · exact actionRewardOkB_append (h2 act hact)
              · simp only [actionRewardOkB]
                simp only [jobRewardOkB] at hheadok
                exact mintConfirmedB_append hheadok
              · simp [actionRewardOkB]
    | nonceConflict =>
        simp only [drainStep, hqe, List.append_assoc, List.cons_append,
          List.nil_append]
        constructor
        · intro p hp
          exact jobRewardOkB_append (hrest p hp)
        · intro act hact
          simp only [List.mem_append, List.mem_cons,
            List.not_mem_nil, or_false] at hact
          rcases hact with hact | rfl | rfl
          · exact actionRewardOkB_append (h2 act hact)
          · cases j with
            | mint id u a => simp [actionRewardOkB]
            | reward id u a =>
                simp only [actionRewardOkB]
                simp only [jobRewardOkB] at hheadok
                exact mintConfirmedB_append hheadok
          · simp [actionRewardOkB]
    | insufficientFunds =>
        simp only [drainStep, hqe, List.append_assoc, List.cons_append,
          List.nil_append]
        constructor
        · intro p hp
          have hp2 : p ∈ (seq, j) :: rest := hp
          rcases List.mem_cons.mp hp2 with rfl | hp3
          · exact jobRewardOkB_append hheadok
          · exact jobRewardOkB_append (hrest p hp3)
        · intro act hact
          simp only [List.mem_append, List.mem_cons,
            List.not_mem_nil, or_false] at hact
          rcases hact with hact | rfl
          · exact actionRewardOkB_append (h2 act hact)
          · cases j with
            | mint id u a => simp [actionRewardOkB]
            | reward id u a =>
                simp only [actionRewardOkB]
                simp only [jobRewardOkB] at hheadok
                exact mintConfirmedB_append hheadok
    | otherFailure =>
        simp only [drainStep, hqe, List.append_assoc, List.cons_append,
          List.nil_append]
        constructor
        · intro p hp
          have hp2 : p ∈ (seq, j) :: rest := hp
          rcases List.mem_cons.mp hp2 with rfl | hp3
          · exact jobRewardOkB_append hheadok
          · exact jobRewardOkB_append (hrest p hp3)
        · intro act hact
          simp only [List.mem_append, List.mem_cons,
            List.not_mem_nil, or_false] at hact
          rcases hact with hact | rfl
          · exact actionRewardOkB_append (h2 act hact)
          · cases j with
            | mint id u a => simp [actionRewardOkB]
            | reward id u a =>
                simp only [actionRewardOkB]
                simp only [jobRewardOkB] at hheadok
                exact mintConfirmedB_append hheadok

lemma rewardSafe_run {s : RelayerState} (h : RewardSafe s)
    (cmds : List Cmd) : RewardSafe (run cmds s) := by
  induction cmds generalizing s with
  | nil => exact h
  | cons c cs ih =>
      cases c with
      | deliver cid e => exact ih (rewardSafe_handleEvent h cid e)
      | drainTick o => exact ih (rewardSafe_drainStep h o)

/-- C3: an event id enters the dedup ledger only after the mint
transaction's receipt confirms success (there is a confirmed mint receipt
for it in the trace), the ledger stays duplicate-free (each id is inserted
at most once, `Set` semantics), and a drain iteration whose outcome is any
failure — including a reverted or failed mint — leaves the ledger
unchanged. -/
theorem mark_only_after_confirmed_mint (cmds : List Cmd)
    (s0 : RelayerState) (h0 : ProcessedSafe s0) (o : Outcome)
    (s : RelayerState) (ho : o ≠ Outcome.success) :
    ProcessedSafe (run cmds s0) ∧
    (drainStep o s).processed = s.processed := by
  refine ⟨processedSafe_run h0 cmds, ?_⟩
  cases hqe : s.queue with
  | nil => simp [drainStep, hqe]
  | cons p rest =>
      obtain ⟨seq, j⟩ := p
      cases o with
      | success => exact absurd rfl ho
      | nonceConflict => simp [drainStep, hqe]
      | insufficientFunds => simp [drainStep, hqe]
      | otherFailure => simp [drainStep, hqe]

theorem mark_only_after_confirmed_mint_witness :
    ProcessedSafe (run [Cmd.deliver 1 ⟨1, 100, 1, "0xa", 0⟩,
        Cmd.drainTick Outcome.success] (initState 5)) ∧
    (drainStep Outcome.otherFailure (initState 5)).processed
      = (initState 5).processed :=
  mark_only_after_confirmed_mint
    [Cmd.deliver 1 ⟨1, 100, 1, "0xa", 0⟩, Cmd.drainTick Outcome.success]
    (initState 5) (by simp [ProcessedSafe, initState]) Outcome.otherFailure
    (initState 5) (by decide)

/-- C4: reward jobs are chained strictly after their mint: starting from a
state with no unjustified reward jobs (such as the initial state), in every
reachable state each reward job in the queue and each reward enqueue or
reward submission in the trace is for an event whose mint transaction
already has a confirmed successful receipt — the reward transfer is never
submitted before the mint's success callback fires. -/
theorem reward_only_after_mint_confirmed (cmds : List Cmd)
    (s0 : RelayerState) (h0 : RewardSafe s0) :
    RewardSafe (run cmds s0) :=
  rewardSafe_run h0 cmds

theorem reward_only_after_mint_confirmed_witness :
    RewardSafe (run [Cmd.deliver 1 ⟨1, 100, 1, "0xa", 0⟩,
        Cmd.drainTick Outcome.success, Cmd.drainTick Outcome.success]
      (initState 5)) :=
  reward_only_after_mint_confirmed
    [Cmd.deliver 1 ⟨1, 100, 1, "0xa", 0⟩,
     Cmd.drainTick Outcome.success, Cmd.drainTick Outcome.success]
    (initState 5) (by simp [RewardSafe, initState])

/-- C1: the transaction queue is drained strictly serially in FIFO order;
for any two jobs J1 enqueued before J2 (smaller ghost sequence number), if
both are confirmed on the destination chain, J1's transaction nonce is
strictly smaller than J2's. -/
theorem fifo_nonce_ordering (cmds : List Cmd) (s0 : RelayerState)
    (hInv : Inv s0) (j1 j2 : Nat × Job × Nat)
    (h1 : j1 ∈ (run cmds s0).confirmed) (h2 : j2 ∈ (run cmds s0).confirmed)
    (hseq : j1.1 < j2.1) : j1.2.2 < j2.2.2 := by
  have hI := inv_run hInv cmds
  rcases pairwise_mem_cases _ j1 j2 hI.2.1 h1 h2 with h | h | h
  · exact h.2
  · exact absurd h.1 (Nat.lt_asymm hseq)
  · rw [h] at hseq; exact absurd hseq (lt_irrefl _)

lemma inv_initState (t : Nat) : Inv (initState t) := by
  simp [Inv, initState]

theorem fifo_nonce_ordering_witness : (5 : Nat) < 6 :=
  fifo_nonce_ordering
    [Cmd.deliver 1 ⟨1, 100, 1, "0xa", 0⟩, Cmd.deliver 1 ⟨2, 200, 1, "0xb", 0⟩,
     Cmd.drainTick Outcome.success, Cmd.drainTick Outcome.success]
    (initState 5) (inv_initState 5)
    (0, Job.mint "1-0xa-0" 1 100, 5) (1, Job.mint "1-0xb-0" 2 200, 6)
    (by decide) (by decide) (by decide)

/-- C2: an already-marked event id is discarded silently at discovery time:
when the id is in `processedEvents`, `pollForEvents` skips the event and the
relayer state is completely unchanged (no mint job, no reward job). -/
theorem dedup_discard (cid : Nat) (e : LockEvent) (s : RelayerState)
    (h : eventId cid e.txHash e.logIndex ∈ s.processed) :
    handleEvent cid e s = s := by
  simp [handleEvent, h]

theorem dedup_discard_witness :
    handleEvent 1 ⟨1, 100, 1, "0xa", 0⟩
        { initState 5 with processed := ["1-0xa-0"] }
      = { initState 5 with processed := ["1-0xa-0"] } :=
  dedup_discard 1 ⟨1, 100, 1, "0xa", 0⟩ _ (by decide)

/-- C5: failure classification of the drain loop.  On a nonce-conflict
error the head job is dropped without re-submission and draining continues
with the next job; on `insufficient funds` and on any other failure the
queue is unchanged and the same job stays at the head to be retried;
neither failure mode confirms anything or touches the dedup ledger. -/
theorem failure_classification (s : RelayerState) (seq : Nat) (j : Job)
    (rest : List (Nat × Job)) (h : s.queue = (seq, j) :: rest) :
    ((drainStep Outcome.nonceConflict s).queue = rest ∧
      (drainStep Outcome.nonceConflict s).processed = s.processed ∧
      (drainStep Outcome.nonceConflict s).confirmed = s.confirmed ∧
      (drainStep Outcome.nonceConflict s).actions
        = s.actions ++ [Action.submitAttempt seq j s.txCount,
            Action.dropJob seq j]) ∧
    ((drainStep Outcome.insufficientFunds s).queue = s.queue ∧
      (drainStep Outcome.insufficientFunds s).processed = s.processed ∧
      (drainStep Outcome.insufficientFunds s).confirmed = s.confirmed) ∧
    ((drainStep Outcome.otherFailure s).queue = s.queue ∧
      (drainStep Outcome.otherFailure s).processed = s.processed ∧
      (drainStep Outcome.otherFailure s).confirmed = s.confirmed) := by
  simp [drainStep, h]

theorem failure_classification_witness :
    (drainStep Outcome.nonceConflict
        { initState 5 with queue := [(0, Job.mint "1-0xa-0" 1 100)] }).queue
      = [] :=
  (failure_classification
    { initState 5 with queue := [(0, Job.mint "1-0xa-0" 1 100)] }
    0 (Job.mint "1-0xa-0" 1 100) [] (by decide)).1.1

/-- C7: the mint job is 1:1 (`mintAmount = amount`, no fee, no rescaling)
targeting the token contract's `mint(user, amount)`, and the chained reward
job transfers exactly `(amount * 10) / 100` of the locked amount in the
reward token, with exact integer arithmetic; a locked amount of 1,000,000
yields a reward of exactly 100,000. -/
theorem amounts_exact (cid : Nat) (e : LockEvent) (s : RelayerState)
    (hp : eventId cid e.txHash e.logIndex ∉ s.processed)
    (s2 : RelayerState) (seq u a : Nat) (id : String)
    (rest : List (Nat × Job))
    (hq : s2.queue = (seq, Job.mint id u a) :: rest) :
    (handleEvent cid e s).queue
      = s.queue ++ [(s.nextSeq,
          Job.mint (eventId cid e.txHash e.logIndex) e.user e.amount)] ∧
    (Job.mint id u a).request = ⟨Target.tokenContract, "mint", u, a⟩ ∧
    (drainStep Outcome.success s2).queue
      = rest ++ [(s2.nextSeq, Job.reward id u (rewardAmount a))] ∧
    (Job.reward id u (rewardAmount a)).request
      = ⟨Target.sttContract, "transfer", u, a * 10 / 100⟩ ∧
    rewardAmount 1000000 = 100000 := by
  refine ⟨?_, rfl, ?_, rfl, by decide⟩
  · simp [handleEvent, hp, enqueueJob]
  · simp [drainStep, hq, onSuccessEffect, enqueueJob]

theorem amounts_exact_witness :
    (Job.reward "1-0xa-0" 1 (rewardAmount 1000000)).request
      = ⟨Target.sttContract, "transfer", 1, 1000000 * 10 / 100⟩ ∧
    rewardAmount 1000000 = 100000 := by
  have h := amounts_exact 1 ⟨1, 1000000, 1, "0xa", 0⟩ (initState 5)
    (by decide)
    { initState 5 with queue := [(0, Job.mint "1-0xa-0" 1 1000000)] }
    0 1 1000000 "1-0xa-0" [] (by decide)
  exact ⟨h.2.2.2.1, h.2.2.2.2⟩

/-- C8: before each submission attempt — whatever the eventual outcome —
the sequencer assigns the nonce freshly fetched from the destination chain
(`getTransactionCount`, the state's `txCount`), not a locally cached value,
and a confirmed transaction advances the chain's count by one, so the next
fetch returns the next nonce to use. -/
theorem nonce_fetched_fresh (s : RelayerState) (seq : Nat) (j : Job)
    (rest : List (Nat × Job)) (h : s.queue = (seq, j) :: rest)
    (o : Outcome) :
    (∃ tail, (drainStep o s).actions
        = s.actions ++ Action.submitAttempt seq j s.txCount :: tail) ∧
    (drainStep Outcome.success s).txCount = s.txCount + 1 := by
  constructor
  · cases o with
    | success =>
        cases j with
        | mint id u a =>
            refine ⟨[Action.confirmTx seq (Job.mint id u a) s.txCount,
              Action.markProcessed id,
              Action.enqueued s.nextSeq
                (Job.reward id u (rewardAmount a))], ?_⟩
            simp [drainStep, h, onSuccessEffect, enqueueJob]
        | reward id u a =>
            refine ⟨[Action.confirmTx seq (Job.reward id u a) s.txCount], ?_⟩
            simp [drainStep, h, onSuccessEffect]
    | nonceConflict =>
        refine ⟨[Action.dropJob seq j], ?_⟩
        simp [drainStep, h]
    | insufficientFunds =>
        refine ⟨[], ?_⟩
        simp [drainStep, h]
    | otherFailure =>
        refine ⟨[], ?_⟩
        simp [drainStep, h]
  · cases j <;> simp [drainStep, h, onSuccessEffect, enqueueJob]

theorem nonce_fetched_fresh_witness :
    (drainStep Outcome.success
        { initState 5 with queue := [(0, Job.mint "1-0xa-0" 1 100)] }).txCount
      = 5 + 1 :=
  (nonce_fetched_fresh
    { initState 5 with queue := [(0, Job.mint "1-0xa-0" 1 100)] }
    0 (Job.mint "1-0xa-0" 1 100) [] (by decide) Outcome.success).2

/-- C10: the dedup check happens at discovery time against a set that is
updated only after the mint confirms; a second delivery of the same event
id while the first mint job is still queued (the id not yet marked) also
enqueues a mint job, so both copies sit in the queue. -/
theorem duplicate_in_flight_enqueued_again (cid : Nat) (e : LockEvent)
    (s : RelayerState) (seq u a : Nat)
    (hq : (seq, Job.mint (eventId cid e.txHash e.logIndex) u a) ∈ s.queue)
    (hp : eventId cid e.txHash e.logIndex ∉ s.processed) :
    (handleEvent cid e s).queue
      = s.queue ++ [(s.nextSeq,
          Job.mint (eventId cid e.txHash e.logIndex) e.user e.amount)] ∧
    (seq, Job.mint (eventId cid e.txHash e.logIndex) u a)
      ∈ (handleEvent cid e s).queue := by
  constructor
  · simp [handleEvent, hp, enqueueJob]
  · simp [handleEvent, hp, enqueueJob, hq]

lemma pollChainOnce_cursor_state_independent (cs : ChainSetup)
    (f : Option Nat) (q : Option (List LockEvent)) (s t : RelayerState) :
    (pollChainOnce cs f q s).1 = (pollChainOnce cs f q t).1 := by
  cases f with
  | none => rfl
  | some head =>
      simp only [pollChainOnce]
      split
      · cases q <;> rfl
      · rfl

lemma pollRound_cursors
    (inputs : List (ChainSetup × Option Nat × Option (List LockEvent)))
    (s : RelayerState) :
    (pollRound inputs s).1
      = inputs.map (fun x => (pollChainOnce x.1 x.2.1 x.2.2 s).1) := by
  induction inputs generalizing s with
  | nil => rfl
  | cons x rest ih =>
      obtain ⟨cs, f, q⟩ := x
      simp only [pollRound, List.map_cons]
      rw [ih]
      refine congrArg₂ List.cons rfl ?_
      exact List.map_congr_left
        (fun y _ => pollChainOnce_cursor_state_independent y.1 y.2.1 y.2.2 _ s)

/-- C6: each chain's cursor is monotonically non-decreasing; a failed head
fetch or a failed event query leaves the cursor (and the relayer state)
unchanged, so the same range is retried next round; the cursor advances to
the fetched head exactly when the event query succeeds; and in a polling
round every chain's new cursor is a function of that chain's own RPC
results alone — in particular a chain whose head fetch fails leaves its
cursor in place and does not prevent the other chains' polls from
completing. -/
theorem cursor_monotone_and_isolated (cs : ChainSetup)
    (f : Option Nat) (q : Option (List LockEvent)) (s : RelayerState)
    (head : Nat) (evs : List LockEvent)
    (hgt : cs.lastBlockChecked < head)
    (inputs : List (ChainSetup × Option Nat × Option (List LockEvent)))
    (bad : ChainSetup) (qb : Option (List LockEvent)) :
    cs.lastBlockChecked ≤ (pollChainOnce cs f q s).1.lastBlockChecked ∧
    pollChainOnce cs none q s = (cs, s) ∧
    pollChainOnce cs (some head) none s = (cs, s) ∧
    (pollChainOnce cs (some head) (some evs) s).1.lastBlockChecked = head ∧
    (pollRound inputs s).1
      = inputs.map (fun x => (pollChainOnce x.1 x.2.1 x.2.2 s).1) ∧
    pollRound ((bad, none, qb) :: inputs) s
      = (bad :: (pollRound inputs s).1, (pollRound inputs s).2) := by
  refine ⟨?_, rfl, ?_, ?_, pollRound_cursors inputs s, rfl⟩
  · cases f with
    | none => exact le_refl _
    | some h2 =>
        simp only [pollChainOnce]
        split
        · next hlt =>
            cases q with
            | none => exact le_refl _
            | some evs2 => exact le_of_lt hlt
        · exact le_refl _
  · simp [pollChainOnce, hgt]
  · simp [pollChainOnce, hgt]

theorem cursor_monotone_and_isolated_witness :
    (pollChainOnce ⟨1, 3⟩ (some 5) (some []) (initState 0)).1.lastBlockChecked
      = 5 :=
  (cursor_monotone_and_isolated ⟨1, 3⟩ (some 5) (some []) (initState 0)
    5 [] (by decide) [] ⟨2, 7⟩ none).2.2.2.1

theorem duplicate_in_flight_enqueued_again_witness :
    (handleEvent 1 ⟨1, 100, 1, "0xa", 0⟩
        { initState 5 with
            queue := [(0, Job.mint "1-0xa-0" 1 100)], nextSeq := 1 }).queue
      = [(0, Job.mint "1-0xa-0" 1 100)]
        ++ [(1, Job.mint "1-0xa-0" 1 100)] :=
  (duplicate_in_flight_enqueued_again 1 ⟨1, 100, 1, "0xa", 0⟩
    { initState 5 with
        queue := [(0, Job.mint "1-0xa-0" 1 100)], nextSeq := 1 }
    0 1 100 (by decide) (by decide)).1

/-! ### Event id: purity and injectivity -/

lemma toDigitsCore_eq_decDigits :
    ∀ (fuel n : Nat) (acc : List Char), n < fuel →
      Nat.toDigitsCore 10 fuel n acc = decDigits n ++ acc := by
  intro fuel
  induction fuel with
  | zero => intro n acc h; omega
  | succ f ih =>
      intro n acc h
      by_cases hz : n / 10 = 0
      · have hn : n < 10 := by omega
        rw [decDigits]
        simp only [Nat.toDigitsCore, hz, if_true, hn, dif_pos]
        rw [Nat.mod_eq_of_lt hn]
        rfl
      · have hn : ¬ n < 10 := by
          intro hlt
          exact hz (Nat.div_eq_of_lt hlt)
        have hdiv : n / 10 < f := by
          have h1 : n / 10 < n := Nat.div_lt_self (by omega) (by omega)
          omega
        rw [decDigits]
        simp only [Nat.toDigitsCore, hz, if_false, hn, dif_neg,
          not_false_iff]
        rw [ih (n / 10) (Nat.digitChar (n % 10) :: acc) hdiv]
        simp

lemma toDigits_eq_decDigits (n : Nat) :
    Nat.toDigits 10 n = decDigits n := by
  rw [Nat.toDigits,
    toDigitsCore_eq_decDigits (n + 1) n [] (Nat.lt_succ_self n),
    List.append_nil]

lemma digitChar_ne_dash {m : Nat} (h : m < 10) : Nat.digitChar m ≠ '-' := by
  interval_cases m <;> decide

lemma decDigits_ne_dash (n : Nat) : '-' ∉ decDigits n := by
  induction n using Nat.strong_induction_on with
  | _ n ih =>
      rw [decDigits]
      split
      · next h =>
          simp only [List.mem_singleton]
          intro heq
          exact digitChar_ne_dash h heq.symm
      · next h =>
          simp only [List.mem_append, List.mem_singleton]
          rintro (hmem | heq)
          · exact ih (n / 10) (Nat.div_lt_self (by omega) (by omega)) hmem
          · exact digitChar_ne_dash (Nat.mod_lt _ (by omega)) heq.symm

lemma charVal_digitChar {m : Nat} (h : m < 10) :
    charVal (Nat.digitChar m) = m := by
  interval_cases m <;> decide

lemma readNatAux_decDigits :
    ∀ n a : Nat, readNatAux a (decDigits n)
      = a * 10 ^ (decDigits n).length + n := by
  intro n
  induction n using Nat.strong_induction_on with
  | _ n ih =>
      intro a
      rw [decDigits]
      split
      · next h =>
          simp only [readNatAux, List.foldl_cons, List.foldl_nil,
            List.length_cons, List.length_nil, pow_one, zero_add]
          rw [charVal_digitChar h]
          omega
      · next h =>
          have hlt : n / 10 < n := Nat.div_lt_self (by omega) (by omega)
          have hih := ih (n / 10) hlt a
          have hmod : charVal (Nat.digitChar (n % 10)) = n % 10 :=
            charVal_digitChar (Nat.mod_lt _ (by omega))
          simp only [readNatAux, List.foldl_append, List.foldl_cons,
            List.foldl_nil, List.length_append, List.length_cons,
            List.length_nil, zero_add]
          rw [hmod]
          rw [readNatAux] at hih
          rw [hih, pow_succ]
          have hdm : 10 * (n / 10) + n % 10 = n := Nat.div_add_mod n 10
          ring_nf
          omega

lemma decDigits_inj {m n : Nat} (h : decDigits m = decDigits n) :
    m = n := by
  have hm := readNatAux_decDigits m 0
  have hn := readNatAux_decDigits n 0
  rw [h] at hm
  rw [zero_mul, zero_add] at hm hn
  omega

lemma toString_nat_data (n : Nat) :
    (toString n).data = decDigits n := by
  have h1 : toString n = Nat.repr n := rfl
  have h2 : Nat.repr n = (Nat.toDigits 10 n).asString := rfl
  rw [h1, h2, toDigits_eq_decDigits]
  rfl

lemma toString_nat_inj {m n : Nat}
    (h : (toString m).data = (toString n).data) : m = n := by
  rw [toString_nat_data, toString_nat_data] at h
  exact decDigits_inj h

lemma toString_nat_no_dash (n : Nat) : '-' ∉ (toString n).data := by
  rw [toString_nat_data]
  exact decDigits_ne_dash n

lemma sep_split : ∀ (a a2 t t2 : List Char), '-' ∉ a → '-' ∉ a2 →
    a ++ '-' :: t = a2 ++ '-' :: t2 → a = a2 ∧ t = t2 := by
  intro a
  induction a with
  | nil =>
      intro a2 t t2 _ ha2 heq
      cases a2 with
      | nil => simpa using heq
      | cons c rest =>
          simp only [List.nil_append, List.cons_append,
            List.cons.injEq] at heq
          obtain ⟨h1, h2⟩ := heq
          subst h1
          simp at ha2
  | cons c arest ih =>
      intro a2 t t2 ha ha2 heq
      cases a2 with
      | nil =>
          simp only [List.nil_append, List.cons_append,
            List.cons.injEq] at heq
          obtain ⟨h1, h2⟩ := heq
          subst h1
          simp at ha
      | cons c2 arest2 =>
          simp only [List.cons_append, List.cons.injEq] at heq
          obtain ⟨h1, h2⟩ := heq
          have hra : '-' ∉ arest := fun hm => ha (List.mem_cons_of_mem _ hm)
          have hra2 : '-' ∉ arest2 :=
            fun hm => ha2 (List.mem_cons_of_mem _ hm)
          obtain ⟨hA, hT⟩ := ih arest2 t t2 hra hra2 h2
          exact ⟨by rw [h1, hA], hT⟩

/-- C9: the event id is a pure function of (source chain id, transaction
hash, log index) — it is a `def` with no other inputs, so the same triple
always yields the same id, across restarts — and it is injective: two
distinct triples (with well-formed, dash-free transaction hashes) never
produce the same event id. -/
theorem eventId_pure_injective (c : Nat) (h : String) (l : Nat)
    (c2 : Nat) (h2 : String) (l2 : Nat)
    (hh : '-' ∉ h.data) (hh2 : '-' ∉ h2.data)
    (heq : eventId c h l = eventId c2 h2 l2) :
    c = c2 ∧ h = h2 ∧ l = l2 := by
  have hdata := congrArg String.data heq
  simp only [eventId, String.data_append, List.append_assoc,
    List.singleton_append] at hdata
  obtain ⟨hC, hrest⟩ :=
    sep_split _ _ _ _ (toString_nat_no_dash c) (toString_nat_no_dash c2)
      hdata
  obtain ⟨hH, hL⟩ := sep_split _ _ _ _ hh hh2 hrest
  refine ⟨toString_nat_inj hC, ?_, toString_nat_inj hL⟩
  cases h with
  | mk d =>
      cases h2 with
      | mk d2 => exact congrArg String.mk hH

theorem eventId_pure_injective_witness :
    (1 : Nat) = 1 ∧ ("0xab" : String) = "0xab" ∧ (2 : Nat) = 2 :=
  eventId_pure_injective 1 "0xab" 2 1 "0xab" 2 (by decide) (by decide) rfl

end Relayer
